import Mathlib

/-!
Shallow embedding of `scripts/summarize_rocm_smi.py` (rocm-smi log
summarizer) and verification of its specification claims.

Conventions of the embedding:
* Python floats are modelled as exact rationals (`ℚ`); parsed decimal
  literals denote their exact decimal value.
* Fallible parsing returns `Option`.
* Python `dict`s (including `defaultdict`) are modelled as insertion-ordered
  association lists.
* Strings are Lean `String`s; the Python string operations used by the
  script (`strip`, `split`, `lower`, `startswith`, `in`, …) are defined
  below over the underlying character lists, restricted to ASCII (the logs
  are ASCII).
-/

/-- Characters treated as whitespace by Python's `str.strip()`, `str.split()`
and the regex class `\s` (ASCII subset). -/
def isPySpace (c : Char) : Bool :=
  c = ' ' || c = '\t' || c = '\n' || c = '\r' || c = '\x0b' || c = '\x0c'

/-- ASCII decimal digit, the regex class `\d` (ASCII). -/
def isAsciiDigit (c : Char) : Bool := '0' ≤ c && c ≤ '9'

/-- ASCII letter, the regex class `[A-Za-z]`. -/
def isAsciiAlpha (c : Char) : Bool := ('a' ≤ c && c ≤ 'z') || ('A' ≤ c && c ≤ 'Z')

/-- Regex word character `\w` (ASCII), used for word boundaries `\b`. -/
def isWordChar (c : Char) : Bool := isAsciiDigit c || isAsciiAlpha c || c = '_'

/-- ASCII lower-casing of one character, as Python's `str.lower()` acts on
ASCII text. -/
def toLowerChar (c : Char) : Char :=
  if 'A' ≤ c && c ≤ 'Z' then Char.ofNat (c.toNat + 32) else c

/-- Build a string back from a character list. -/
def strOf (cs : List Char) : String := ⟨cs⟩

/-- Python `str.lower()` (ASCII). -/
def lowerStr (s : String) : String := strOf (s.data.map toLowerChar)

def trimLeft (cs : List Char) : List Char := cs.dropWhile isPySpace

def trimRight (cs : List Char) : List Char := (cs.reverse.dropWhile isPySpace).reverse

/-- Python `str.strip()` with no arguments. -/
def pyStrip (s : String) : String := strOf (trimRight (trimLeft s.data))

/-- Python `str.rstrip()` with no arguments. -/
def pyRstrip (s : String) : String := strOf (trimRight s.data)

/-- Python `str.split()` with no arguments: split on whitespace runs and
drop empty fields.  `splitWsAux cs cur` scans `cs` with `cur` holding the
(reversed) characters of the current field. -/
def splitWsAux : List Char → List Char → List String
  | [], cur => if cur.isEmpty then [] else [strOf cur.reverse]
  | c :: cs, cur =>
    if isPySpace c then
      if cur.isEmpty then splitWsAux cs [] else strOf cur.reverse :: splitWsAux cs []
    else splitWsAux cs (c :: cur)

/-- Python `str.split()` with no arguments. -/
def pySplit (s : String) : List String := splitWsAux s.data []

/-- Test whether `p` is a prefix of `cs`: `isPre p cs` holds when `p` is a prefix of the character list `cs`. -/
def isPre : List Char → List Char → Bool
  | [], _ => true
  | _ :: _, [] => false
  | p :: ps, c :: cs => p = c && isPre ps cs

/-- Python `str.startswith(pre)`. -/
def pyStartsWith (s pre : String) : Bool := isPre pre.data s.data

/-- Python `str.endswith(suf)`. -/
def pyEndsWith (s suf : String) : Bool := isPre suf.data.reverse s.data.reverse

/-- Substring search: `hasSub hay sub` holds when `sub` occurs as a contiguous sublist of
`hay`; this is Python's `sub in hay` for strings. -/
def hasSub (hay sub : List Char) : Bool :=
  match hay with
  | [] => isPre sub []
  | c :: t => isPre sub (c :: t) || hasSub t sub

/-- Python's substring test `sub in s`. -/
def containsSub (s sub : String) : Bool := hasSub s.data sub.data

/-- Numeric value of a list of ASCII digits. -/
def digitsToNat (ds : List Char) : Nat := ds.foldl (fun n c => 10 * n + (c.toNat - 48)) 0

/-- Exact rational value of the decimal literal with integer digits `intD`
and fractional digits `fracD` (the value Python's `float()` denotes,
idealized to exact arithmetic).  Built with `Rat.divInt` so that concrete
values reduce definitionally. -/
def decValue (intD fracD : List Char) : ℚ :=
  Rat.divInt (digitsToNat (intD ++ fracD) : ℤ) ((10 : ℤ) ^ fracD.length)

/-- Match the regex fragment `\d+(?:\.\d+)?` at the head of `cs` (which is
assumed to start with a digit): returns the integer digits, the fractional
digits (empty when the optional group does not participate), and the
remaining characters. -/
def matchNum (cs : List Char) : (List Char × List Char) × List Char :=
  let intD := cs.takeWhile isAsciiDigit
  let rest := cs.dropWhile isAsciiDigit
  match rest with
  | '.' :: r =>
    match r with
    | d :: _ =>
      if isAsciiDigit d then ((intD, r.takeWhile isAsciiDigit), r.dropWhile isAsciiDigit)
      else ((intD, []), rest)
    | [] => ((intD, []), rest)
  | _ => ((intD, []), rest)

/-- Model of `re.search` with the pattern `NUM_RE = -?\d+(?:\.\d+)?`: find the
leftmost match and return its numeric value.  A `-` participates only when
immediately followed by a digit (otherwise the regex engine moves on). -/
def scanNumber : List Char → Option ℚ
  | [] => none
  | c :: cs =>
    if isAsciiDigit c then some (decValue (matchNum (c :: cs)).1.1 (matchNum (c :: cs)).1.2)
    else if c = '-' then
      match cs with
      | d :: _ => if isAsciiDigit d then (scanNumber cs).map (fun v => -v) else scanNumber cs
      | [] => none
    else scanNumber cs

/-- Translation of `parse_number`: `NUM_RE.search(token)` converted with `float`. -/
def parseNumber (token : String) : Option ℚ := scanNumber token.data

/-- Model of `re.search` with the pattern `(\d+(?:\.\d+)?)\s*([A-Za-z]+)?` used by
`parse_value_with_units`: leftmost decimal magnitude, then greedy
whitespace, then an optional run of letters (the unit, `""` when absent). -/
def scanMagUnit : List Char → Option (ℚ × String)
  | [] => none
  | c :: cs =>
    if isAsciiDigit c then
      some (decValue (matchNum (c :: cs)).1.1 (matchNum (c :: cs)).1.2,
        strOf (((matchNum (c :: cs)).2.dropWhile isPySpace).takeWhile isAsciiAlpha))
    else scanMagUnit cs

/-- Translation of `parse_value_with_units`: parse values like `(400Mhz)` or `400 MHz`
into MHz. -/
def parseValueWithUnits (text : String) : Option ℚ :=
  match scanMagUnit text.data with
  | none => none
  | some (v, u) =>
    let unit := lowerStr u
    if unit = "mhz" || unit = "m" then some v
    else if unit = "ghz" || unit = "g" then some (v * 1000)
    else some v

/-- Python `int(s)` on a decimal string: optional surrounding whitespace,
optional sign, one or more ASCII digits.  (Underscore digit grouping and
non-ASCII digits, which Python also accepts, do not occur in these logs and
are not modelled.) -/
def pyInt (s : String) : Option Int :=
  match (pyStrip s).data with
  | '-' :: ds => if !ds.isEmpty && ds.all isAsciiDigit then some (-(digitsToNat ds : Int)) else none
  | '+' :: ds => if !ds.isEmpty && ds.all isAsciiDigit then some (digitsToNat ds : Int) else none
  | ds => if !ds.isEmpty && ds.all isAsciiDigit then some (digitsToNat ds : Int) else none

/-- Floor of a rational, computed with flooring integer division (kept
definitionally reducible; equals `Int.floor`). -/
def ratFloor (q : ℚ) : ℤ := q.num.fdiv q.den

/-- Ceiling of a rational (equals `Int.ceil`). -/
def ratCeil (q : ℚ) : ℤ := -ratFloor (-q)

/-- Python `int()` applied to a (rational-valued) float: truncation toward
zero. -/
def ratTrunc (q : ℚ) : ℤ := q.num.tdiv q.den

/-- Python `sorted` on numeric values: ascending sort. -/
def sortAsc (l : List ℚ) : List ℚ := l.insertionSort (· ≤ ·)

/-- Translation of `percentile(values, p)` from the script: sort ascending, special-case a
singleton, locate the continuous rank `k = (n-1)*(p/100)` and linearly
interpolate between the floor and ceiling ranks.  List indexing is total
(`getD` with default `0`); all indices are in range for `p = 95`. -/
def percentile (values : List ℚ) (p : ℚ) : Option ℚ :=
  if values = [] then none
  else
    let v := sortAsc values
    if v.length = 1 then some (v.getD 0 0)
    else
      let k : ℚ := ((v.length : ℚ) - 1) * (p / 100)
      let f : ℤ := ratFloor k
      let c : ℤ := ratCeil k
      if f = c then some (v.getD (ratTrunc k).toNat 0)
      else some (v.getD f.toNat 0 * ((c : ℚ) - k) + v.getD c.toNat 0 * (k - (f : ℚ)))

/-- Model of `statistics.mean`, idealized to exact arithmetic. -/
def avgOf (l : List ℚ) : ℚ := l.sum / l.length

/-- Python `max` over a nonempty list (`none` on the empty list, where
Python would raise). -/
def pyMax : List ℚ → Option ℚ
  | [] => none
  | x :: xs => some (xs.foldl max x)

/-- The `{avg, p95, max}` record produced by `summarize_metric`. -/
structure MetricStats where
  avg : ℚ
  p95 : ℚ
  max : ℚ
deriving DecidableEq

/-- Translation of `summarize_metric(values)`: `None` on an empty list, otherwise the
mean / 95th percentile / maximum record.  (`percentile` and `max` never
return `None`/raise on a nonempty list; the `getD` defaults are never
used.) -/
def summarizeMetric (values : List ℚ) : Option MetricStats :=
  if values = [] then none
  else some ⟨avgOf values, (percentile values 95).getD 0, (pyMax values).getD 0⟩

/-- Per-device metric map: canonical metric key to the ordered list of
observed values.  Models the inner `defaultdict(list)` (insertion
ordered). -/
abbrev MetricSeqs := List (String × List ℚ)

/-- Device id to per-device metric map.  Models the outer
`defaultdict(lambda: defaultdict(list))`. -/
abbrev Metrics := List (String × MetricSeqs)

/-- Lookup of one metric's value list (empty when absent, as a fresh
`defaultdict` entry would be). -/
def getSeq : MetricSeqs → String → List ℚ
  | [], _ => []
  | (k', vs) :: t, k => if k' = k then vs else getSeq t k

/-- Lookup of one device/metric value list. -/
def getM : Metrics → String → String → List ℚ
  | [], _, _ => []
  | (g', km) :: t, g, k => if g' = g then getSeq km k else getM t g k

/-- Model of `metrics[key].extend(vs)` on the inner map: extend the entry in place,
or append a new entry (as `defaultdict` creation does). -/
def extendSeq : MetricSeqs → String → List ℚ → MetricSeqs
  | [], k, vs => [(k, vs)]
  | (k', vs') :: t, k, vs => if k' = k then (k', vs' ++ vs) :: t else (k', vs') :: extendSeq t k vs

/-- Model of `metrics[gpu][key].extend(vs)`: extend in place, creating missing
entries at the end (insertion order). -/
def extendM : Metrics → String → String → List ℚ → Metrics
  | [], g, k, vs => [(g, extendSeq [] k vs)]
  | (g', km) :: t, g, k, vs =>
    if g' = g then (g', extendSeq km k vs) :: t else (g', km) :: extendM t g k vs

/-- Model of `metrics[gpu][key].append(v)`. -/
def appendM (m : Metrics) (g k : String) (v : ℚ) : Metrics := extendM m g k [v]

/-- The `if val is not None: metrics[gpu][key].append(val)` idiom. -/
def appendOpt (m : Metrics) (g k : String) : Option ℚ → Metrics
  | none => m
  | some v => appendM m g k v

/-- Key-wise merge of a whole metrics map into an accumulator, iterating
`src` in insertion order: the nested
`for gpu_id, gpu_metrics in src.items(): for key, values in
gpu_metrics.items(): acc[gpu_id][key].extend(values)` loops. -/
def mergeM (m src : Metrics) : Metrics :=
  src.foldl (fun acc p => p.2.foldl (fun a q => extendM a p.1 q.1 q.2) acc) m

/-- Translation of `temperature_key(label)`: classify a temperature label by substring
match on its lower-cased form. -/
def temperatureKey (label : String) : Option String :=
  let ll := lowerStr label
  if containsSub ll "sensor edge" then some "temp_edge_c"
  else if containsSub ll "sensor junction" then some "temp_junction_c"
  else if containsSub ll "sensor memory" then some "temp_memory_c"
  else if containsSub ll "sensor hbm 0" then some "temp_hbm0_c"
  else if containsSub ll "sensor hbm 1" then some "temp_hbm1_c"
  else if containsSub ll "sensor hbm 2" then some "temp_hbm2_c"
  else if containsSub ll "sensor hbm 3" then some "temp_hbm3_c"
  else if containsSub ll "temperature" then some "temp_c"
  else none

/-- Feasibility of ending the lazy label group `(?P<label>.+?)` of
`KV_LINE_RE` after `k` characters of `r`: greedy `\s*` must then reach a
`:`, and at least one character (`(?P<value>.+)$`) must remain after the
colon. -/
def kvFeasible (r : List Char) (k : Nat) : Bool :=
  match (r.drop k).dropWhile isPySpace with
  | ':' :: rest => !rest.isEmpty
  | _ => false

/-- Smallest feasible end of the lazy label group, searching upward from
`k` with explicit fuel (lazy `+?` tries shorter labels first). -/
def firstFeasible (r : List Char) : Nat → Nat → Option Nat
  | _, 0 => none
  | k, fuel + 1 => if kvFeasible r k then some k else firstFeasible r (k + 1) fuel

/-- The raw text matched by the value group `\s*(?P<value>.+)$` after a
label ending at `k`: skip the colon and greedy whitespace; when everything
after the colon is whitespace the greedy `\s*` backtracks one character so
`.+` matches the final whitespace character. -/
def kvValue (r : List Char) (k : Nat) : List Char :=
  match (r.drop k).dropWhile isPySpace with
  | _ :: after =>
    let v := after.dropWhile isPySpace
    if v.isEmpty then [after.getLastD ' '] else v
  | [] => []

/-- Model of `KV_LINE_RE.match(line.strip())` with
`KV_LINE_RE = ^GPU\[(?P<gpu>\d+)\]\s*:\s*(?P<label>.+?)\s*:\s*(?P<value>.+)$`,
followed by the `.strip()` the script applies to the label and value
groups.  Returns `(gpu id, stripped label, stripped value)`.

The lazy label group is resolved as the smallest feasible end position
after the greedy whitespace skip that follows the first colon.  (The one
engine behaviour not reproduced: when no feasible end exists there, the
engine can backtrack that whitespace skip and match an all-whitespace
label; such a label strips to `""`, matches no dispatch rule in
`parse_kv_lines`, and so is observationally identical to returning no
match.) -/
def kvMatch (line : String) : Option (String × String × String) :=
  let s := (pyStrip line).data
  if isPre "GPU[".data s then
    let rest := s.drop 4
    let id := rest.takeWhile isAsciiDigit
    if id.isEmpty then none
    else
      match rest.drop id.length with
      | ']' :: rest3 =>
        match rest3.dropWhile isPySpace with
        | ':' :: rest5 =>
          let r := rest5.dropWhile isPySpace
          match firstFeasible r 1 r.length with
          | some k => some (strOf id, pyStrip (strOf (r.take k)), pyStrip (strOf (kvValue r k)))
          | none => none
        | _ => none
      | _ => none
  else none

/-- One iteration of the `parse_kv_lines` loop: match the line and
dispatch on the label (exact matches, clock-level label spellings via the
unit parser, then temperature classification). -/
def kvStep (m : Metrics) (line : String) : Metrics :=
  match kvMatch line with
  | none => m
  | some (gpu, label, value) =>
    if label = "GPU use (%)" then appendOpt m gpu "gpu_util_pct" (parseNumber value)
    else if label = "GPU Memory Allocated (VRAM%)" then
      appendOpt m gpu "vram_util_pct" (parseNumber value)
    else if label = "GPU Memory Read/Write Activity (%)" then
      appendOpt m gpu "mem_rw_activity_pct" (parseNumber value)
    else if label = "Average Graphics Package Power (W)" then
      appendOpt m gpu "power_w" (parseNumber value)
    else if pyStartsWith label "fclk clock level" then
      appendOpt m gpu "fclk_mhz" (parseValueWithUnits value)
    else if pyStartsWith label "mclk clock level" then
      appendOpt m gpu "mclk_mhz" (parseValueWithUnits value)
    else if pyStartsWith label "sclk clock level" then
      appendOpt m gpu "sclk_mhz" (parseValueWithUnits value)
    else if pyStartsWith label "socclk clock level" then
      appendOpt m gpu "socclk_mhz" (parseValueWithUnits value)
    else
      match temperatureKey label with
      | some tk => appendOpt m gpu tk (parseNumber value)
      | none => m

/-- Translation of `parse_kv_lines(lines)`. -/
def parseKvLines (lines : List String) : Metrics := lines.foldl kvStep []

/-- Translation of `normalize_header(token)`:
`token.strip().lower().replace("(", "").replace(")", "").replace("%", "%")`
(the final replace is the identity). -/
def normalizeHeader (token : String) : String :=
  strOf ((((pyStrip token).data.map toLowerChar).filter (fun c => c != '(')).filter
    (fun c => c != ')'))

/-- The column indices resolved by the `find_col` calls of
`parse_sample`. -/
structure Cols where
  gpu : Option Nat
  gpuUtil : Option Nat
  vram : Option Nat
  temp : Option Nat
  power : Option Nat
  sclk : Option Nat
  mclk : Option Nat
deriving DecidableEq

/-- Translation of `find_col(*names)`: index in the normalized header of the first alias
present there. -/
def findCol (header : List String) : List String → Option Nat
  | [] => none
  | n :: rest =>
    match header.findIdx? (· == n) with
    | some i => some i
    | none => findCol header rest

/-- The seven `find_col` calls of `parse_sample` (alias lists verbatim,
including the duplicated `"gpu%"`). -/
def resolveCols (header : List String) : Cols :=
  ⟨findCol header ["gpu"],
   findCol header ["gpu%", "gpu%", "gpuuse%", "gpuuse"],
   findCol header ["vram%", "mem%", "memuse%"],
   findCol header ["temp", "temperature"],
   findCol header ["avgpwr", "power", "pwr", "avgpower"],
   findCol header ["sclk"],
   findCol header ["mclk"]⟩

/-- Translation of `grab(col)`: `None` when the column is unresolved or beyond the row's
tokens, otherwise the numeric parse of the token there. -/
def grab (tokens : List String) : Option Nat → Option ℚ
  | none => none
  | some c => if c < tokens.length then parseNumber (tokens.getD c "") else none

/-- The body of the `for line in data_lines` loop of `parse_sample`: skip
the row when the device-id column is unresolved or out of range, otherwise
append every successfully grabbed column value. -/
def rowStep (cols : Cols) (m : Metrics) (line : String) : Metrics :=
  let tokens := pySplit line
  match cols.gpu with
  | none => m
  | some cg =>
    if cg < tokens.length then
      let gpu := tokens.getD cg ""
      let m1 := appendOpt m gpu "gpu_util_pct" (grab tokens cols.gpuUtil)
      let m2 := appendOpt m1 gpu "vram_util_pct" (grab tokens cols.vram)
      let m3 := appendOpt m2 gpu "temp_c" (grab tokens cols.temp)
      let m4 := appendOpt m3 gpu "power_w" (grab tokens cols.power)
      let m5 := appendOpt m4 gpu "sclk_mhz" (grab tokens cols.sclk)
      appendOpt m5 gpu "mclk_mhz" (grab tokens cols.mclk)
    else m

/-- Processing of one extracted table in `parse_sample`: normalize the
header tokens, resolve the columns, then fold over the data rows. -/
def tableStep (m : Metrics) (tbl : List String × List String) : Metrics :=
  let cols := resolveCols (tbl.1.map normalizeHeader)
  tbl.2.foldl (rowStep cols) m

/-- Model of `GPU_LINE_RE = ^\s*\d+\b`: optional leading whitespace, a maximal run
of digits, then a word boundary (end of line or a non-word character). -/
def isGpuLine (line : String) : Bool :=
  let t := trimLeft line.data
  !(t.takeWhile isAsciiDigit).isEmpty &&
    (match t.dropWhile isAsciiDigit with
     | [] => true
     | c :: _ => !isWordChar c)

/-- The data-row scan terminator inside `extract_tables`:
`lines[j].strip() == "---" or lines[j].startswith("ts=")`. -/
def isRegionEnd (line : String) : Bool := pyStrip line = "---" || pyStartsWith line "ts="

/-- The header heuristic of `extract_tables`:
`"GPU" in line and "%" in line and "ts=" not in line`. -/
def isTableHeader (line : String) : Bool :=
  containsSub line "GPU" && containsSub line "%" && !containsSub line "ts="

/-- The inner `while j < len(lines)` scan of `extract_tables`: collect
(right-stripped) rows matching `GPU_LINE_RE` until a terminator line, and
return them with the unconsumed suffix (which starts at the terminator
when one was found). -/
def scanData : List String → List String × List String
  | [] => ([], [])
  | l :: rest =>
    if isRegionEnd l then ([], l :: rest)
    else
      let p := scanData rest
      (if isGpuLine l then pyRstrip l :: p.1 else p.1, p.2)

/-- Translation of `extract_tables(lines)`, fuel-indexed so the recursion is structural:
on a header line, scan its data rows and resume at the scan's end
(`i = j`); otherwise advance one line.  A table is produced only when at
least one data row was found.  Any fuel at least `lines.length` computes
the fixpoint (the resume point never moves backwards). -/
def extractTablesFuel : Nat → List String → List (List String × List String)
  | 0, _ => []
  | _ + 1, [] => []
  | fuel + 1, l :: rest =>
    if isTableHeader l then
      let p := scanData rest
      (if p.1.isEmpty then [] else [(pySplit (pyStrip l), p.1)]) ++ extractTablesFuel fuel p.2
    else extractTablesFuel fuel rest

/-- Translation of `extract_tables(lines)`: the yielded `(header_tokens, data_lines)`
pairs. -/
def extractTables (lines : List String) : List (List String × List String) :=
  extractTablesFuel lines.length lines

/-- The table half of `parse_sample`: fold `tableStep` over the extracted
tables, starting from an empty accumulator. -/
def tableParse (lines : List String) : Metrics :=
  (extractTables lines).foldl tableStep []

/-- Translation of `parse_sample(lines)`: table-derived metrics first, then the key/value
metrics merged in by key-wise extension. -/
def parseSample (lines : List String) : Metrics :=
  mergeM (tableParse lines) (parseKvLines lines)

/-- Model of `line.split("=", 1)[1]`: everything after the first `=` (only used on
lines that start with `ts=`, so a `=` is present). -/
def splitEqTail (line : String) : String := strOf ((line.data.dropWhile (· != '=')).tail)

/-- The block-segmentation loop of `summarize_logs`: `segmentAux rest
current blocks tss` processes the remaining lines with the accumulated
current block, finished blocks and parsed timestamps.  A `ts=` line closes
the current block, records its (parseable) timestamp and starts a new
block containing the marker line; a `---` line closes the current block
and is dropped; trailing lines form a final block. -/
def segmentAux : List String → List String → List (List String) → List Int →
    List (List String) × List Int
  | [], current, blocks, tss => (if current.isEmpty then blocks else blocks ++ [current], tss)
  | line :: rest, current, blocks, tss =>
    if pyStartsWith line "ts=" then
      segmentAux rest [line] (if current.isEmpty then blocks else blocks ++ [current])
        (match pyInt (splitEqTail line) with
         | some n => tss ++ [n]
         | none => tss)
    else if pyStrip line = "---" then
      segmentAux rest [] (if current.isEmpty then blocks else blocks ++ [current]) tss
    else segmentAux rest (current ++ [line]) blocks tss

/-- Segmentation of one file's lines into sample blocks plus the list of
parsed timestamps, as in `summarize_logs`. -/
def segmentLines (lines : List String) : List (List String) × List Int := segmentAux lines [] [] []

/-- Python `min` over a list of ints (`none` when empty, where the script
writes `None`). -/
def minList : List Int → Option Int
  | [] => none
  | x :: xs => some (xs.foldl min x)

/-- Python `max` over a list of ints. -/
def maxList : List Int → Option Int
  | [] => none
  | x :: xs => some (xs.foldl max x)

/-- The per-file `node_stats` record of `summarize_logs`. -/
structure NodeStats where
  log_file : String
  samples : Nat
  start_ts : Option Int
  end_ts : Option Int
  gpus : List (String × List (String × Option MetricStats))
deriving DecidableEq

/-- The top-level `summary` record of `summarize_logs` (`log_dir` is the
directory path as given; `os.path.abspath` is outside the model). -/
structure Summary where
  log_dir : String
  nodes : List (String × NodeStats)
  warnings : List String
deriving DecidableEq

/-- The `combined` accumulator of `summarize_logs`: fold every sample
block's `parse_sample` output into one file-level metrics map. -/
def combineBlocks (blocks : List (List String)) : Metrics :=
  blocks.foldl (fun m b => mergeM m (parseSample b)) []

/-- The `gpus` mapping of one node: per device, per metric key, the
`summarize_metric` record (in insertion order). -/
def gpusOf (combined : Metrics) : List (String × List (String × Option MetricStats)) :=
  combined.map (fun p => (p.1, p.2.map (fun q => (q.1, summarizeMetric q.2))))

/-- The per-file body of the `summarize_logs` loop: segment, parse and
combine all blocks, and build the `node_stats` record.  The second
component reports whether `combined` was empty (the warning
condition).  `os.path.join(log_dir, name)` is modelled as
`log_dir ++ "/" ++ name`. -/
def processFile (logDir name : String) (lines : List String) : NodeStats × Bool :=
  let bt := segmentLines lines
  let combined := combineBlocks bt.1
  (⟨logDir ++ "/" ++ name, bt.1.length, minList bt.2, maxList bt.2, gpusOf combined⟩,
    combined.isEmpty)

/-- Model of `os.path.splitext(name)[0]` for a `name` ending in `".log"`: drop the
extension, except that an all-dots stem means the dot belongs to the
leading dots of the file name and nothing is split off (e.g. `".log"` and
`"..log"` keep their full name). -/
def nodeName (name : String) : String :=
  let stem := name.data.take (name.data.length - 4)
  if stem.all (· = '.') then name else strOf stem

/-- Python `dict` assignment `nodes[k] = v`: overwrite in place (keeping
the original insertion position) or append. -/
def setNode : List (String × NodeStats) → String → NodeStats → List (String × NodeStats)
  | [], k, v => [(k, v)]
  | (k', v') :: t, k, v => if k' = k then (k, v) :: t else (k', v') :: setNode t k v

/-- Association lookup in the node mapping. -/
def lookupNode : List (String × NodeStats) → String → Option NodeStats
  | [], _ => none
  | (k', v) :: t, k => if k' = k then some v else lookupNode t k

/-- The `for name in sorted(os.listdir(log_dir))` loop of
`summarize_logs`, threading the `nodes` and `warnings` accumulators:
non-`.log` names are skipped; a file whose `combined` map is empty
appends one warning string naming the file. -/
def summarizeAux (logDir : String) :
    List (String × List String) → List (String × NodeStats) → List String → Summary
  | [], nodes, warnings => ⟨logDir, nodes, warnings⟩
  | f :: rest, nodes, warnings =>
    if pyEndsWith f.1 ".log" then
      summarizeAux logDir rest (setNode nodes (nodeName f.1) (processFile logDir f.1 f.2).1)
        (warnings ++ if (processFile logDir f.1 f.2).2 then
          ["No parseable metrics in " ++ f.1] else [])
    else summarizeAux logDir rest nodes warnings

/-- Translation of `summarize_logs(log_dir)`, with the directory listing supplied as
`files`: the name/content pairs of the directory entries in sorted order
(file enumeration and I/O are outside the model). -/
def summarizeLogs (logDir : String) (files : List (String × List String)) : Summary :=
  summarizeAux logDir files [] []

/-- A value that some token parses to, through either numeric parser of
the script.  Every value the extractors store arises this way (claim C3). -/
def ValParsed (v : ℚ) : Prop :=
  ∃ t : String, parseNumber t = some v ∨ parseValueWithUnits t = some v

/-- The 95th-percentile rule exactly as the specification words it:
sort ascending, take the continuous rank `k = (n-1)*0.95`, return the
value there when `floor(k) = ceil(k)` and otherwise interpolate between
the floor- and ceiling-rank values weighted by the fractional distance.
Stated separately from `percentile` (which is translated from the code)
so the two can be compared (claim C2). -/
def specP95 (l : List ℚ) : ℚ :=
  let s := sortAsc l
  let k : ℚ := ((l.length : ℚ) - 1) * (95 / 100)
  if ratFloor k = ratCeil k then s.getD (ratFloor k).toNat 0
  else s.getD (ratFloor k).toNat 0 * ((ratCeil k : ℚ) - k) +
    s.getD (ratCeil k).toNat 0 * (k - (ratFloor k : ℚ))

/-- Key sets of the two association-list levels are duplicate-free.  All
metrics maps built by the extractors satisfy this (Python dicts cannot
have duplicate keys); several merge identities below need it. -/
def WFm (m : Metrics) : Prop :=
  (m.map Prod.fst).Nodup ∧ ∀ p ∈ m, (p.2.map Prod.fst).Nodup

/-- The data invariant of claim C3 on a metrics map: every device has at
least one metric, every metric sequence is nonempty, and every stored
value was produced by a successful numeric parse. -/
def InvM (m : Metrics) : Prop :=
  ∀ p ∈ m, p.2 ≠ [] ∧ ∀ q ∈ p.2, q.2 ≠ [] ∧ ∀ v ∈ q.2, ValParsed v

/-- Whether a file's combined metrics map is empty: the warning condition
of `summarize_logs` (`if not combined`). -/
def fileEmpty (lines : List String) : Bool := (combineBlocks (segmentLines lines).1).isEmpty

/-- The warnings produced by one pass of the `summarize_logs` loop over
the given directory listing: one string per `.log` file whose combined
metrics map is empty. -/
def warnsOf (files : List (String × List String)) : List String :=
  (files.filter fun f => pyEndsWith f.1 ".log" && fileEmpty f.2).map
    (fun f => "No parseable metrics in " ++ f.1)

theorem sortAsc_length (l : List ℚ) : (sortAsc l).length = l.length :=
  List.length_insertionSort _ l

theorem ratFloor_eq_floor (q : ℚ) : ratFloor q = ⌊q⌋ := by
  rw [Rat.floor_def, ratFloor]
  exact Int.fdiv_eq_ediv _ (Int.natCast_nonneg _)

theorem ratCeil_eq_ceil (q : ℚ) : ratCeil q = ⌈q⌉ := by
  rw [ratCeil, ratFloor_eq_floor, Int.floor_neg, neg_neg]

theorem ratTrunc_intCast (m : ℤ) : ratTrunc (m : ℚ) = m := by
  simp [ratTrunc, Rat.num_intCast, Rat.den_intCast]

/-- The code's `percentile` at `p = 95` computes exactly the
specification's interpolation rule on every nonempty list (the code's
singleton shortcut agrees with the rule at `n = 1`, and its `int(k)`
truncation agrees with `floor(k)` in the `floor = ceil` branch). -/
theorem percentile_eq_spec (l : List ℚ) (hl : l ≠ []) : percentile l 95 = some (specP95 l) := by
  have hlen := sortAsc_length l
  simp only [percentile, specP95, if_neg hl, hlen]
  by_cases h1 : l.length = 1
  · rw [if_pos h1, h1]
    have h0 : (((1 : ℕ) : ℚ) - 1) * (95 / 100) = 0 := by norm_num
    rw [h0]
    have hf : ratFloor 0 = 0 := by decide
    have hc : ratCeil 0 = 0 := by decide
    rw [hf, hc, if_pos rfl]
    norm_num
  · rw [if_neg h1]
    by_cases hfc : ratFloor (((l.length : ℚ) - 1) * (95 / 100)) =
        ratCeil (((l.length : ℚ) - 1) * (95 / 100))
    · rw [if_pos hfc, if_pos hfc]
      have hfc' : ⌊((l.length : ℚ) - 1) * (95 / 100)⌋ = ⌈((l.length : ℚ) - 1) * (95 / 100)⌉ := by
        rw [← ratFloor_eq_floor, ← ratCeil_eq_ceil]; exact hfc
      have hkk : ((l.length : ℚ) - 1) * (95 / 100) =
          ((⌊((l.length : ℚ) - 1) * (95 / 100)⌋ : ℤ) : ℚ) :=
        le_antisymm (by rw [hfc']; exact Int.le_ceil _) (Int.floor_le _)
      have htr : ratTrunc (((l.length : ℚ) - 1) * (95 / 100)) =
          ratFloor (((l.length : ℚ) - 1) * (95 / 100)) := by
        rw [ratFloor_eq_floor]
        conv_lhs => rw [hkk]
        exact ratTrunc_intCast _
      rw [htr]
    · rw [if_neg hfc, if_neg hfc]

/-- Auxiliary facts about `foldl max`: the result is the seed or a list
element, dominates the seed, and dominates every element. -/
theorem foldlMax_spec : ∀ (xs : List ℚ) (a : ℚ),
    (xs.foldl max a = a ∨ xs.foldl max a ∈ xs) ∧ a ≤ xs.foldl max a ∧
      ∀ x ∈ xs, x ≤ xs.foldl max a := by
  intro xs
  induction xs with
  | nil => simp
  | cons b t ih =>
    intro a
    simp only [List.foldl_cons]
    obtain ⟨hmem, hle, hall⟩ := ih (max a b)
    refine ⟨?_, le_trans (le_max_left a b) hle, ?_⟩
    · rcases hmem with h | h
      · rcases max_choice a b with hh | hh
        · left; rw [h, hh]
        · right; rw [h, hh]; exact List.mem_cons_self _ _
      · right; exact List.mem_cons_of_mem _ h
    · intro x hx
      rcases List.mem_cons.mp hx with rfl | hx
      · exact le_trans (le_max_right a x) hle
      · exact hall x hx

/-- Claim C2: on every nonempty sequence, `summarize_metric` returns a
record whose `avg` is the arithmetic mean, whose `max` is the maximum, and
whose `p95` follows the specification's sort/continuous-rank/linear
interpolation rule (`specP95`); a singleton returns its element for all
three statistics. -/
theorem claim2 (l : List ℚ) (hl : l ≠ []) :
    ∃ s, summarizeMetric l = some s ∧ s.avg = l.sum / l.length ∧ s.p95 = specP95 l ∧
      s.max ∈ l ∧ (∀ x ∈ l, x ≤ s.max) ∧
      ∀ x, l = [x] → s.avg = x ∧ s.p95 = x ∧ s.max = x := by
  rcases l with _ | ⟨a, t⟩
  · exact absurd rfl hl
  refine ⟨⟨avgOf (a :: t), (percentile (a :: t) 95).getD 0, (pyMax (a :: t)).getD 0⟩,
    rfl, rfl, ?_, ?_, ?_, ?_⟩
  · rw [percentile_eq_spec _ hl]; rfl
  · obtain ⟨hmem, _, _⟩ := foldlMax_spec t a
    simp only [pyMax, Option.getD_some]
    rcases hmem with h | h
    · rw [h]; exact List.mem_cons_self _ _
    · exact List.mem_cons_of_mem _ h
  · intro x hx
    obtain ⟨_, hle, hall⟩ := foldlMax_spec t a
    rcases List.mem_cons.mp hx with rfl | hx
    · simpa [pyMax] using hle
    · simpa [pyMax] using hall x hx
  · intro x hx
    rw [List.cons.injEq] at hx
    obtain ⟨rfl, rfl⟩ := hx
    refine ⟨by simp [avgOf], rfl, rfl⟩

/-- Witness for C2 at the concrete list `[3, 1]`. -/
theorem claim2_witness :
    ∃ s, summarizeMetric [(3 : ℚ), 1] = some s ∧
      s.avg = [(3 : ℚ), 1].sum / ([(3 : ℚ), 1] : List ℚ).length ∧
      s.p95 = specP95 [(3 : ℚ), 1] ∧
      s.max ∈ [(3 : ℚ), 1] ∧ (∀ x ∈ [(3 : ℚ), 1], x ≤ s.max) ∧
      ∀ x, [(3 : ℚ), 1] = [x] → s.avg = x ∧ s.p95 = x ∧ s.max = x :=
  claim2 [3, 1] (by decide)

/-- Claim C5: the unit normalizer maps `400Mhz` to `400`, `1.2GHz` to
`1200` and `850` to `850`, and in general, whatever magnitude/unit pair
the regex extracts, a (case-insensitive) `ghz` unit multiplies the
magnitude by 1000 while an `mhz` unit or a missing unit leaves it
unchanged. -/
theorem claim5 :
    parseValueWithUnits "400Mhz" = some 400 ∧
    parseValueWithUnits "1.2GHz" = some 1200 ∧
    parseValueWithUnits "850" = some 850 ∧
    ∀ (s : String) (v : ℚ) (u : String), scanMagUnit s.data = some (v, u) →
      ((lowerStr u = "ghz" → parseValueWithUnits s = some (v * 1000)) ∧
       (lowerStr u = "mhz" ∨ u = "" → parseValueWithUnits s = some v)) := by
  refine ⟨by decide, ?_, by decide, ?_⟩
  · have h : scanMagUnit "1.2GHz".data = some (Rat.divInt 12 10, "GHz") := by decide
    simp only [parseValueWithUnits, h]
    rw [show lowerStr "GHz" = "ghz" from by decide]
    rw [if_neg (by decide), if_pos (by decide)]
    rw [Option.some_inj, Rat.divInt_eq_div]
    norm_num
  · intro s v u h
    constructor
    · intro hg
      simp only [parseValueWithUnits, h, hg]
      rw [if_neg (by decide), if_pos (by decide)]
    · intro hm
      rcases hm with hm | hm
      · simp only [parseValueWithUnits, h, hm]
        rw [if_pos (by decide)]
      · simp only [parseValueWithUnits, h, hm]
        rw [show lowerStr "" = "" from by decide]
        rw [if_neg (by decide), if_neg (by decide)]

/-- Witness for C5's universal part at `"1.2GHz"`. -/
theorem claim5_witness : parseValueWithUnits "1.2GHz" = some (Rat.divInt 12 10 * 1000) :=
  (claim5.2.2.2 "1.2GHz" (Rat.divInt 12 10) "GHz" (by decide)).1 (by decide)

/-- Claim C9: when the extracted unit is none of `mhz`/`m`/`ghz`/`g`
(case-insensitively), `parse_value_with_units` silently returns the
magnitude unchanged (treated as already-megahertz) instead of rejecting
the value; e.g. `500khz` parses to `500` and `3.5W` to `3.5`. -/
theorem claim9 :
    (∀ (s : String) (v : ℚ) (u : String), scanMagUnit s.data = some (v, u) →
      lowerStr u ≠ "mhz" → lowerStr u ≠ "m" → lowerStr u ≠ "ghz" → lowerStr u ≠ "g" →
      parseValueWithUnits s = some v) ∧
    parseValueWithUnits "500khz" = some 500 ∧
    parseValueWithUnits "3.5W" = some (Rat.divInt 35 10) := by
  refine ⟨?_, by decide, by decide⟩
  intro s v u h h1 h2 h3 h4
  simp only [parseValueWithUnits, h]
  rw [if_neg (by simp [h1, h2]), if_neg (by simp [h3, h4])]

/-- Witness for C9 at `"500khz"`. -/
theorem claim9_witness : parseValueWithUnits "500khz" = some 500 :=
  claim9.1 "500khz" 500 "khz" (by decide) (by decide) (by decide) (by decide) (by decide)

/-- Claim C1: the end-to-end summary of the two-block key/value log
(`ts=100` with a 45% reading, `ts=200` with a 55% reading) has
`start_ts = 100`, `end_ts = 200`, `samples = 2`, and for device `0` the
metric `gpu_util_pct` summarized as `avg = 50`, `p95 = 54.5`, `max = 55`,
with no warnings. -/
theorem claim1 :
    summarizeLogs "logs" [("node1.log",
      ["ts=100", "GPU[0]: GPU use (%): 45", "ts=200", "GPU[0]: GPU use (%): 55"])] =
    ⟨"logs", [("node1", ⟨"logs/node1.log", 2, some 100, some 200,
      [("0", [("gpu_util_pct", some ⟨50, 109 / 2, 55⟩)])]⟩)], []⟩ := by
  norm_num [summarizeLogs, summarizeAux, processFile, Summary.mk.injEq, NodeStats.mk.injEq,
    show pyEndsWith "node1.log" ".log" = true from by decide,
    show nodeName "node1.log" = "node1" from by decide,
    show segmentLines ["ts=100", "GPU[0]: GPU use (%): 45", "ts=200", "GPU[0]: GPU use (%): 55"] =
      ([["ts=100", "GPU[0]: GPU use (%): 45"], ["ts=200", "GPU[0]: GPU use (%): 55"]],
        [100, 200]) from by decide,
    show combineBlocks [["ts=100", "GPU[0]: GPU use (%): 45"],
        ["ts=200", "GPU[0]: GPU use (%): 55"]] = [("0", [("gpu_util_pct", [45, 55])])] from by
      decide,
    show Int.fdiv 19 20 = 0 from by decide,
    show ((-19 : ℤ)).fdiv 20 = -1 from by decide,
    show Int.tdiv 19 20 = 0 from by decide,
    show sortAsc [(45 : ℚ), 55] = [45, 55] from by decide,
    gpusOf, summarizeMetric, avgOf, pyMax, percentile,
    setNode, minList, maxList, MetricStats.mk.injEq, ratFloor, ratCeil, ratTrunc]
  refine ⟨by decide, by simp, by simp⟩

theorem getSeq_not_mem (km : MetricSeqs) (k : String) (h : k ∉ km.map Prod.fst) :
    getSeq km k = [] := by
  induction km with
  | nil => rfl
  | cons p t ih =>
    obtain ⟨k0, vs0⟩ := p
    simp only [List.map_cons, List.mem_cons] at h
    push_neg at h
    simp only [getSeq]
    rw [if_neg (fun hh => h.1 hh.symm)]
    exact ih h.2

theorem getM_not_mem (m : Metrics) (g k : String) (h : g ∉ m.map Prod.fst) :
    getM m g k = [] := by
  induction m with
  | nil => rfl
  | cons p t ih =>
    obtain ⟨g0, km0⟩ := p
    simp only [List.map_cons, List.mem_cons] at h
    push_neg at h
    simp only [getM]
    rw [if_neg (fun hh => h.1 hh.symm)]
    exact ih h.2

theorem getSeq_extendSeq (km : MetricSeqs) (k k' : String) (vs : List ℚ) :
    getSeq (extendSeq km k vs) k' = if k' = k then getSeq km k ++ vs else getSeq km k' := by
  induction km with
  | nil =>
    by_cases h : k' = k
    · subst h; simp [extendSeq, getSeq]
    · have h1 : ¬ k = k' := fun hh => h hh.symm
      simp [extendSeq, getSeq, h, h1]
  | cons p t ih =>
    obtain ⟨k0, vs0⟩ := p
    by_cases hk0 : k0 = k
    · subst hk0
      by_cases hk' : k' = k0
      · subst hk'; simp [extendSeq, getSeq]
      · have h1 : ¬ k0 = k' := fun hh => hk' hh.symm
        simp [extendSeq, getSeq, hk', h1]
    · by_cases h2 : k0 = k'
      · subst h2
        have h3 : ¬ k0 = k := hk0
        simp [extendSeq, getSeq, h3]
      · by_cases hk' : k' = k
        · subst hk'
          simp [extendSeq, getSeq, hk0, h2, ih]
        · simp [extendSeq, getSeq, hk0, h2, hk', ih]

theorem getM_extendM (m : Metrics) (g k g' k' : String) (vs : List ℚ) :
    getM (extendM m g k vs) g' k' =
      if g' = g ∧ k' = k then getM m g' k' ++ vs else getM m g' k' := by
  induction m with
  | nil =>
    by_cases hg : g' = g
    · subst hg
      by_cases hk : k' = k
      · subst hk; simp [extendM, extendSeq, getM, getSeq]
      · have h1 : ¬ k = k' := fun hh => hk hh.symm
        simp [extendM, extendSeq, getM, getSeq, hk, h1]
    · have h1 : ¬ g = g' := fun hh => hg hh.symm
      simp [extendM, getM, hg, h1]
  | cons p t ih =>
    obtain ⟨g0, km0⟩ := p
    by_cases hg0 : g0 = g
    · subst hg0
      by_cases hg' : g' = g0
      · subst hg'
        simp only [extendM, if_pos rfl, getM, if_pos rfl, getSeq_extendSeq, true_and, if_true]
        by_cases hk : k' = k
        · subst hk; simp
        · simp [hk]
      · have h1 : ¬ g0 = g' := fun hh => hg' hh.symm
        simp [extendM, getM, hg', h1]
    · by_cases hg' : g0 = g'
      · subst hg'
        have h3 : ¬ g0 = g := hg0
        simp [extendM, getM, h3]
      · by_cases hgg : g' = g
        · subst hgg
          simp [extendM, getM, hg0, hg', ih]
        · simp [extendM, getM, hg0, hg', hgg, ih]

theorem getM_innerFold (g0 : String) (km : MetricSeqs) :
    ∀ (acc : Metrics) (g k : String), (km.map Prod.fst).Nodup →
      getM (km.foldl (fun a q => extendM a g0 q.1 q.2) acc) g k =
        getM acc g k ++ if g = g0 then getSeq km k else [] := by
  induction km with
  | nil => intro acc g k _; simp [getSeq]
  | cons q t ih =>
    intro acc g k hk
    obtain ⟨k0, vs0⟩ := q
    simp only [List.map_cons, List.nodup_cons] at hk
    simp only [List.foldl_cons]
    rw [ih _ g k hk.2, getM_extendM]
    by_cases hg : g = g0
    · subst hg
      by_cases hkk : k = k0
      · subst hkk
        rw [if_pos ⟨rfl, rfl⟩, if_pos rfl, if_pos rfl]
        simp [getSeq, getSeq_not_mem t k hk.1, List.append_assoc]
      · rw [if_neg (fun hh => hkk hh.2), if_pos rfl, if_pos rfl]
        simp only [getSeq]
        rw [if_neg (fun hh : k0 = k => hkk hh.symm)]
    · rw [if_neg (fun hh => hg hh.1), if_neg hg, if_neg hg]

theorem getM_mergeM (src : Metrics) :
    ∀ (m : Metrics) (g k : String), WFm src →
      getM (mergeM m src) g k = getM m g k ++ getM src g k := by
  induction src with
  | nil => intro m g k _; simp [mergeM, getM]
  | cons p t ih =>
    intro m g k hwf
    obtain ⟨g0, km0⟩ := p
    obtain ⟨hnd, hin⟩ := hwf
    simp only [List.map_cons, List.nodup_cons] at hnd
    have hstep : mergeM m ((g0, km0) :: t) =
        mergeM (km0.foldl (fun a q => extendM a g0 q.1 q.2) m) t := rfl
    rw [hstep, ih _ g k ⟨hnd.2, fun p hp => hin p (List.mem_cons_of_mem _ hp)⟩,
      getM_innerFold g0 km0 m g k ((hin _ (List.mem_cons_self _ _)) : _)]
    simp only [getM]
    by_cases hg : g0 = g
    · subst hg
      rw [if_pos rfl, if_pos rfl, getM_not_mem t g0 k hnd.1]
      simp [List.append_assoc]
    · rw [if_neg (fun hh => hg hh.symm), if_neg hg]
      simp

theorem mapFst_extendSeq (km : MetricSeqs) (k : String) (vs : List ℚ) :
    (extendSeq km k vs).map Prod.fst =
      if k ∈ km.map Prod.fst then km.map Prod.fst else km.map Prod.fst ++ [k] := by
  induction km with
  | nil => simp [extendSeq]
  | cons p t ih =>
    obtain ⟨k0, vs0⟩ := p
    by_cases h : k0 = k
    · subst h; simp [extendSeq]
    · have h1 : ¬ k = k0 := fun hh => h hh.symm
      simp only [extendSeq, if_neg h, List.map_cons, List.mem_cons, ih]
      by_cases h2 : k ∈ t.map Prod.fst
      · simp [h2, h1]
      · simp [h2, h1]

theorem mapFst_extendM (m : Metrics) (g k : String) (vs : List ℚ) :
    (extendM m g k vs).map Prod.fst =
      if g ∈ m.map Prod.fst then m.map Prod.fst else m.map Prod.fst ++ [g] := by
  induction m with
  | nil => simp [extendM]
  | cons p t ih =>
    obtain ⟨g0, km0⟩ := p
    by_cases h : g0 = g
    · subst h; simp [extendM]
    · have h1 : ¬ g = g0 := fun hh => h hh.symm
      simp only [extendM, if_neg h, List.map_cons, List.mem_cons, ih]
      by_cases h2 : g ∈ t.map Prod.fst
      · simp [h2, h1]
      · simp [h2, h1]

theorem mem_extendM (m : Metrics) (g k : String) (vs : List ℚ) (p : String × MetricSeqs)
    (hp : p ∈ extendM m g k vs) :
    p ∈ m ∨ (∃ km0, (g, km0) ∈ m ∧ p = (g, extendSeq km0 k vs)) ∨ p = (g, extendSeq [] k vs) := by
  induction m with
  | nil =>
    simp only [extendM, List.mem_singleton] at hp
    exact Or.inr (Or.inr hp)
  | cons q t ih =>
    obtain ⟨g0, km0⟩ := q
    by_cases h : g0 = g
    · subst h
      simp only [extendM, if_pos rfl] at hp
      cases hp with
      | head => exact Or.inr (Or.inl ⟨km0, List.mem_cons_self _ _, rfl⟩)
      | tail b hm => exact Or.inl (List.mem_cons_of_mem _ hm)
    · simp only [extendM, if_neg h, List.mem_cons] at hp
      rcases hp with he | hm
      · rw [he]; exact Or.inl (List.mem_cons_self _ _)
      · rcases ih hm with h1 | ⟨km1, hk1, hk2⟩ | h1
        · exact Or.inl (List.mem_cons_of_mem _ h1)
        · exact Or.inr (Or.inl ⟨km1, List.mem_cons_of_mem _ hk1, hk2⟩)
        · exact Or.inr (Or.inr h1)

theorem wfSeq_extendSeq (km : MetricSeqs) (k : String) (vs : List ℚ)
    (h : (km.map Prod.fst).Nodup) : ((extendSeq km k vs).map Prod.fst).Nodup := by
  rw [mapFst_extendSeq]
  split_ifs with h2
  · exact h
  · simp [List.nodup_append, h, h2]

theorem WFm_extendM (m : Metrics) (g k : String) (vs : List ℚ) (h : WFm m) :
    WFm (extendM m g k vs) := by
  obtain ⟨h1, h2⟩ := h
  constructor
  · rw [mapFst_extendM]
    split_ifs with h3
    · exact h1
    · simp [List.nodup_append, h1, h3]
  · intro p hp
    rcases mem_extendM m g k vs p hp with hm | ⟨km0, hk0, rfl⟩ | rfl
    · exact h2 p hm
    · exact wfSeq_extendSeq _ _ _ (h2 _ hk0)
    · simp [extendSeq]

theorem WFm_nil : WFm ([] : Metrics) := by simp [WFm]

theorem WFm_foldl {α : Type} (f : Metrics → α → Metrics)
    (hf : ∀ m a, WFm m → WFm (f m a)) :
    ∀ (l : List α) (m : Metrics), WFm m → WFm (l.foldl f m) := by
  intro l
  induction l with
  | nil => intro m hm; exact hm
  | cons a t ih => intro m hm; exact ih _ (hf m a hm)

theorem WFm_mergeM (src : Metrics) : ∀ (m : Metrics), WFm m → WFm (mergeM m src) := by
  intro m hm
  refine WFm_foldl _ ?_ src m hm
  intro m0 p hp
  exact WFm_foldl _ (fun m1 q hq => WFm_extendM m1 p.1 q.1 q.2 hq) p.2 m0 hp

theorem WFm_appendOpt (m : Metrics) (g k : String) (o : Option ℚ) (h : WFm m) :
    WFm (appendOpt m g k o) := by
  cases o with
  | none => exact h
  | some v => exact WFm_extendM m g k [v] h

theorem WFm_kvStep (m : Metrics) (line : String) (h : WFm m) : WFm (kvStep m line) := by
  unfold kvStep
  cases kvMatch line with
  | none => exact h
  | some r =>
    obtain ⟨gpu, label, value⟩ := r
    dsimp only
    split_ifs <;> try exact WFm_appendOpt _ _ _ _ h
    cases temperatureKey label with
    | none => exact h
    | some tk => exact WFm_appendOpt _ _ _ _ h

theorem WFm_parseKvLines (lines : List String) : WFm (parseKvLines lines) :=
  WFm_foldl _ (fun m line hm => WFm_kvStep m line hm) lines [] WFm_nil

theorem WFm_rowStep (cols : Cols) (m : Metrics) (line : String) (h : WFm m) :
    WFm (rowStep cols m line) := by
  unfold rowStep
  cases cols.gpu with
  | none => exact h
  | some cg =>
    dsimp only
    split_ifs
    · exact WFm_appendOpt _ _ _ _ (WFm_appendOpt _ _ _ _ (WFm_appendOpt _ _ _ _
        (WFm_appendOpt _ _ _ _ (WFm_appendOpt _ _ _ _ (WFm_appendOpt _ _ _ _ h)))))
    · exact h

theorem WFm_tableParse (lines : List String) : WFm (tableParse lines) := by
  refine WFm_foldl _ ?_ (extractTables lines) [] WFm_nil
  intro m tbl hm
  exact WFm_foldl _ (fun m1 row hr => WFm_rowStep _ m1 row hr) tbl.2 m hm

theorem WFm_parseSample (lines : List String) : WFm (parseSample lines) :=
  WFm_mergeM _ _ (WFm_tableParse lines)

/-- Claim C8: the file-level accumulated sequence for any device and
metric key is the concatenation, in block order, of the blocks'
contributions, and within one block the table-derived values come first
followed by the key/value-derived values (each in their own order: the
equality is between whole sequences). -/
theorem claim8 (blocks : List (List String)) (g k : String) :
    getM (combineBlocks blocks) g k =
      ((blocks.map fun b => getM (parseSample b) g k)).flatten ∧
    ∀ lines : List String, getM (parseSample lines) g k =
      getM (tableParse lines) g k ++ getM (parseKvLines lines) g k := by
  constructor
  · have go : ∀ (bs : List (List String)) (m : Metrics),
        getM (bs.foldl (fun m b => mergeM m (parseSample b)) m) g k =
          getM m g k ++ ((bs.map fun b => getM (parseSample b) g k)).flatten := by
      intro bs
      induction bs with
      | nil => intro m; simp
      | cons b t ih =>
        intro m
        simp only [List.foldl_cons, List.map_cons, List.flatten_cons]
        rw [ih, getM_mergeM _ _ _ _ (WFm_parseSample b), List.append_assoc]
    have := go blocks []
    simpa [combineBlocks, getM] using this
  · intro lines
    exact getM_mergeM _ _ _ _ (WFm_parseKvLines lines)

theorem mem_extendSeq (km : MetricSeqs) (k : String) (vs : List ℚ) (q : String × List ℚ)
    (hq : q ∈ extendSeq km k vs) :
    q ∈ km ∨ (∃ vs0, (k, vs0) ∈ km ∧ q = (k, vs0 ++ vs)) ∨ q = (k, vs) := by
  induction km with
  | nil =>
    simp only [extendSeq, List.mem_singleton] at hq
    exact Or.inr (Or.inr hq)
  | cons p t ih =>
    obtain ⟨k0, vs0⟩ := p
    by_cases h : k0 = k
    · subst h
      simp only [extendSeq, if_pos rfl] at hq
      cases hq with
      | head => exact Or.inr (Or.inl ⟨vs0, List.mem_cons_self _ _, rfl⟩)
      | tail b hm => exact Or.inl (List.mem_cons_of_mem _ hm)
    · simp only [extendSeq, if_neg h, List.mem_cons] at hq
      rcases hq with he | hm
      · rw [he]; exact Or.inl (List.mem_cons_self _ _)
      · rcases ih hm with h1 | ⟨vs1, hk1, hk2⟩ | h1
        · exact Or.inl (List.mem_cons_of_mem _ h1)
        · exact Or.inr (Or.inl ⟨vs1, List.mem_cons_of_mem _ hk1, hk2⟩)
        · exact Or.inr (Or.inr h1)

theorem extendSeq_ne_nil (km : MetricSeqs) (k : String) (vs : List ℚ) :
    extendSeq km k vs ≠ [] := by
  cases km with
  | nil => simp [extendSeq]
  | cons p t =>
    obtain ⟨k0, vs0⟩ := p
    by_cases h : k0 = k <;> simp [extendSeq, h]

theorem InvM_nil : InvM [] := fun p hp => absurd hp (List.not_mem_nil p)

theorem InvM_extendM (m : Metrics) (g k : String) (vs : List ℚ)
    (h : InvM m) (hvs : vs ≠ []) (hall : ∀ v ∈ vs, ValParsed v) :
    InvM (extendM m g k vs) := by
  intro p hp
  rcases mem_extendM m g k vs p hp with hm | ⟨km0, hk0, rfl⟩ | rfl
  · exact h p hm
  · obtain ⟨hne, hq⟩ := h _ hk0
    refine ⟨extendSeq_ne_nil _ _ _, ?_⟩
    intro q hq2
    rcases mem_extendSeq km0 k vs q hq2 with hm1 | ⟨vs1, hk1, rfl⟩ | rfl
    · exact hq q hm1
    · obtain ⟨hne1, hp1⟩ := hq _ hk1
      refine ⟨by simp [List.append_eq_nil, hvs], ?_⟩
      intro v hv
      rcases List.mem_append.mp hv with hv | hv
      · exact hp1 v hv
      · exact hall v hv
    · exact ⟨hvs, hall⟩
  · refine ⟨by simp [extendSeq], ?_⟩
    intro q hq2
    simp only [extendSeq, List.mem_singleton] at hq2
    rw [hq2]
    exact ⟨hvs, hall⟩

theorem InvM_appendOpt (m : Metrics) (g k : String) (o : Option ℚ)
    (h : InvM m) (ho : ∀ v, o = some v → ValParsed v) : InvM (appendOpt m g k o) := by
  cases o with
  | none => exact h
  | some v =>
    exact InvM_extendM m g k [v] h (by simp)
      (fun w hw => by rw [List.mem_singleton.mp hw]; exact ho v rfl)

theorem InvM_kvStep (m : Metrics) (line : String) (h : InvM m) : InvM (kvStep m line) := by
  unfold kvStep
  cases kvMatch line with
  | none => exact h
  | some r =>
    obtain ⟨gpu, label, value⟩ := r
    dsimp only
    split_ifs
    all_goals try exact InvM_appendOpt _ _ _ _ h (fun v hv => ⟨value, Or.inl hv⟩)
    all_goals try exact InvM_appendOpt _ _ _ _ h (fun v hv => ⟨value, Or.inr hv⟩)
    cases temperatureKey label with
    | none => exact h
    | some tk => exact InvM_appendOpt _ _ _ _ h (fun v hv => ⟨value, Or.inl hv⟩)

theorem grab_parsed (tokens : List String) (col : Option Nat) (v : ℚ)
    (h : grab tokens col = some v) : ValParsed v := by
  cases col with
  | none => simp [grab] at h
  | some c =>
    simp only [grab] at h
    split_ifs at h
    · exact ⟨tokens.getD c "", Or.inl h⟩

theorem InvM_rowStep (cols : Cols) (m : Metrics) (line : String) (h : InvM m) :
    InvM (rowStep cols m line) := by
  unfold rowStep
  cases cols.gpu with
  | none => exact h
  | some cg =>
    dsimp only
    split_ifs
    · refine InvM_appendOpt _ _ _ _ ?_ (fun v hv => grab_parsed _ _ v hv)
      refine InvM_appendOpt _ _ _ _ ?_ (fun v hv => grab_parsed _ _ v hv)
      refine InvM_appendOpt _ _ _ _ ?_ (fun v hv => grab_parsed _ _ v hv)
      refine InvM_appendOpt _ _ _ _ ?_ (fun v hv => grab_parsed _ _ v hv)
      refine InvM_appendOpt _ _ _ _ ?_ (fun v hv => grab_parsed _ _ v hv)
      exact InvM_appendOpt _ _ _ _ h (fun v hv => grab_parsed _ _ v hv)
    · exact h

theorem InvM_foldl {α : Type} (f : Metrics → α → Metrics)
    (hf : ∀ m a, InvM m → InvM (f m a)) :
    ∀ (l : List α) (m : Metrics), InvM m → InvM (l.foldl f m) := by
  intro l
  induction l with
  | nil => intro m hm; exact hm
  | cons a t ih => intro m hm; exact ih _ (hf m a hm)

theorem InvM_parseKvLines (lines : List String) : InvM (parseKvLines lines) :=
  InvM_foldl _ (fun m line hm => InvM_kvStep m line hm) lines [] InvM_nil

theorem InvM_tableParse (lines : List String) : InvM (tableParse lines) := by
  refine InvM_foldl _ ?_ (extractTables lines) [] InvM_nil
  intro m tbl hm
  exact InvM_foldl _ (fun m1 row hr => InvM_rowStep _ m1 row hr) tbl.2 m hm

theorem InvM_innerFold (g0 : String) (km : MetricSeqs) :
    ∀ acc : Metrics, InvM acc → (∀ q ∈ km, q.2 ≠ [] ∧ ∀ v ∈ q.2, ValParsed v) →
      InvM (km.foldl (fun a q => extendM a g0 q.1 q.2) acc) := by
  induction km with
  | nil => intro acc h _; exact h
  | cons q t ih =>
    intro acc h hall
    simp only [List.foldl_cons]
    refine ih _ ?_ (fun q2 hq2 => hall q2 (List.mem_cons_of_mem _ hq2))
    obtain ⟨h1, h2⟩ := hall q (List.mem_cons_self _ _)
    exact InvM_extendM acc g0 q.1 q.2 h h1 h2

theorem InvM_mergeM (src : Metrics) :
    ∀ m : Metrics, InvM m → InvM src → InvM (mergeM m src) := by
  induction src with
  | nil => intro m hm _; exact hm
  | cons p t ih =>
    intro m hm hsrc
    have hstep : mergeM m (p :: t) =
        mergeM (p.2.foldl (fun a q => extendM a p.1 q.1 q.2) m) t := rfl
    rw [hstep]
    refine ih _ ?_ (fun q hq => hsrc q (List.mem_cons_of_mem _ hq))
    exact InvM_innerFold p.1 p.2 m hm (hsrc p (List.mem_cons_self _ _)).2

theorem InvM_parseSample (lines : List String) : InvM (parseSample lines) :=
  InvM_mergeM _ _ (InvM_tableParse lines) (InvM_parseKvLines lines)

theorem InvM_combineBlocks (blocks : List (List String)) : InvM (combineBlocks blocks) :=
  InvM_foldl _ (fun m b hm => InvM_mergeM _ m hm (InvM_parseSample b)) blocks [] InvM_nil

theorem gpusOf_sound (combined : Metrics) (h : InvM combined) :
    ∀ e ∈ gpusOf combined, e.2 ≠ [] ∧ ∀ st ∈ e.2, st.2 ≠ none := by
  intro e he
  simp only [gpusOf, List.mem_map] at he
  obtain ⟨p, hp, rfl⟩ := he
  obtain ⟨hne, hq⟩ := h p hp
  constructor
  · simpa using hne
  · intro st hst
    simp only [List.mem_map] at hst
    obtain ⟨q, hq2, rfl⟩ := hst
    have hq3 := (hq q hq2).1
    simp [summarizeMetric, hq3]

theorem setNode_mem (nodes : List (String × NodeStats)) (k : String) (v : NodeStats)
    (n : String × NodeStats) (hn : n ∈ setNode nodes k v) : n ∈ nodes ∨ n = (k, v) := by
  induction nodes with
  | nil =>
    simp only [setNode, List.mem_singleton] at hn
    exact Or.inr hn
  | cons p t ih =>
    obtain ⟨k0, v0⟩ := p
    by_cases h : k0 = k
    · simp only [setNode, if_pos h, List.mem_cons] at hn
      rcases hn with he | hm
      · exact Or.inr he
      · exact Or.inl (List.mem_cons_of_mem _ hm)
    · simp only [setNode, if_neg h, List.mem_cons] at hn
      rcases hn with he | hm
      · exact Or.inl (by rw [he]; exact List.mem_cons_self _ _)
      · rcases ih hm with h1 | h1
        · exact Or.inl (List.mem_cons_of_mem _ h1)
        · exact Or.inr h1

theorem summarizeAux_nodes_pred (logDir : String) (P : NodeStats → Prop)
    (hP : ∀ name lines, P (processFile logDir name lines).1) :
    ∀ (files : List (String × List String)) (nodes : List (String × NodeStats))
      (ws : List String), (∀ n ∈ nodes, P n.2) →
      ∀ n ∈ (summarizeAux logDir files nodes ws).nodes, P n.2 := by
  intro files
  induction files with
  | nil => intro nodes ws hinv n hn; exact hinv n hn
  | cons f t ih =>
    intro nodes ws hinv n hn
    simp only [summarizeAux] at hn
    by_cases hf : pyEndsWith f.1 ".log" = true
    · rw [if_pos hf] at hn
      refine ih _ _ ?_ n hn
      intro n2 hn2
      rcases setNode_mem _ _ _ _ hn2 with h1 | h1
      · exact hinv n2 h1
      · rw [h1]; exact hP f.1 f.2
    · rw [if_neg hf] at hn
      exact ih _ _ hinv n hn

/-- Claim C3: every value stored in a per-device metric sequence comes
from a successful numeric parse (no nulls/unparsed tokens are ever
aggregated; `ℚ` has no NaN), no metric sequence of a parsed sample is
empty, and every device present in a node summary has a nonempty metric
map all of whose statistic records are non-null. -/
theorem claim3 :
    (∀ (lines : List String) (p : String × MetricSeqs), p ∈ parseSample lines →
      p.2 ≠ [] ∧ ∀ q ∈ p.2, q.2 ≠ [] ∧ ∀ v ∈ q.2, ValParsed v) ∧
    (∀ (logDir : String) (files : List (String × List String)) (n : String × NodeStats),
      n ∈ (summarizeLogs logDir files).nodes →
      ∀ e ∈ n.2.gpus, e.2 ≠ [] ∧ ∀ st ∈ e.2, st.2 ≠ none) := by
  constructor
  · intro lines p hp
    exact InvM_parseSample lines p hp
  · intro logDir files n hn
    refine summarizeAux_nodes_pred logDir
      (fun ns => ∀ e ∈ ns.gpus, e.2 ≠ [] ∧ ∀ st ∈ e.2, st.2 ≠ none) ?_ files [] []
      (by intro n2 hn2; exact absurd hn2 (List.not_mem_nil n2)) n hn
    intro name lines e he
    exact gpusOf_sound _ (InvM_combineBlocks _) e he

/-- Witness for C3: a concrete parsed sample and a concrete node entry. -/
theorem claim3_witness :
    ((("0", [("gpu_util_pct", [(45 : ℚ)])]) : String × MetricSeqs).2 ≠ [] ∧
      ∀ q ∈ (("0", [("gpu_util_pct", [(45 : ℚ)])]) : String × MetricSeqs).2,
        q.2 ≠ [] ∧ ∀ v ∈ q.2, ValParsed v) ∧
    ∀ e ∈ (("e", (⟨"d/e.log", 0, none, none, []⟩ : NodeStats)) : String × NodeStats).2.gpus,
      e.2 ≠ [] ∧ ∀ st ∈ e.2, st.2 ≠ none :=
  ⟨claim3.1 ["GPU[0]: GPU use (%): 45"] ("0", [("gpu_util_pct", [(45 : ℚ)])]) (by decide),
   claim3.2 "d" [("e.log", [])] ("e", ⟨"d/e.log", 0, none, none, []⟩) (by decide)⟩

theorem scanData_sublen : ∀ ls : List String, (scanData ls).2.length ≤ ls.length := by
  intro ls
  induction ls with
  | nil => simp [scanData]
  | cons l rest ih =>
    simp only [scanData]
    split_ifs with h
    · simp
    all_goals exact le_trans ih (Nat.le_succ _)

theorem extractTablesFuel_congr : ∀ (fuel1 fuel2 : Nat) (ls : List String),
    ls.length ≤ fuel1 → ls.length ≤ fuel2 →
    extractTablesFuel fuel1 ls = extractTablesFuel fuel2 ls := by
  intro fuel1
  induction fuel1 with
  | zero =>
    intro fuel2 ls h1 _
    have hz : ls = [] := List.eq_nil_of_length_eq_zero (Nat.le_zero.mp h1)
    subst hz
    cases fuel2 <;> rfl
  | succ n ih =>
    intro fuel2 ls h1 h2
    cases ls with
    | nil => cases fuel2 <;> rfl
    | cons l rest =>
      cases fuel2 with
      | zero => simp at h2
      | succ n2 =>
        have h1' : rest.length ≤ n := by simp only [List.length_cons] at h1; omega
        have h2' : rest.length ≤ n2 := by simp only [List.length_cons] at h2; omega
        by_cases h : isTableHeader l = true
        · simp only [extractTablesFuel, h, if_true]
          have hs := scanData_sublen rest
          rw [ih n2 _ (le_trans hs h1') (le_trans hs h2')]
        · simp only [extractTablesFuel, h, Bool.false_eq_true, if_false]
          exact ih n2 rest h1' h2'

theorem extractTables_cons_skip (l : String) (rest : List String)
    (h : isTableHeader l = false) : extractTables (l :: rest) = extractTables rest := by
  simp only [extractTables, List.length_cons, extractTablesFuel, h, Bool.false_eq_true, if_false]

theorem extractTables_cons_header (l : String) (rest : List String)
    (h : isTableHeader l = true) :
    extractTables (l :: rest) =
      (if (scanData rest).1.isEmpty then [] else [(pySplit (pyStrip l), (scanData rest).1)]) ++
        extractTables (scanData rest).2 := by
  have hs := scanData_sublen rest
  simp only [extractTables, List.length_cons, extractTablesFuel, h, if_true]
  congr 1
  exact extractTablesFuel_congr rest.length (scanData rest).2.length _ hs le_rfl

theorem isPre_mem : ∀ (p cs : List Char), isPre p cs = true → ∀ c ∈ p, c ∈ cs := by
  intro p
  induction p with
  | nil => intro cs _ c hc; exact absurd hc (List.not_mem_nil c)
  | cons a q ih =>
    intro cs h c hc
    cases cs with
    | nil => simp [isPre] at h
    | cons b t =>
      simp only [isPre, Bool.and_eq_true, decide_eq_true_eq] at h
      rcases List.mem_cons.mp hc with he | hc
      · rw [he, h.1]; exact List.mem_cons_self _ _
      · exact List.mem_cons_of_mem _ (ih t h.2 c hc)

theorem hasSub_mem : ∀ (hay sub : List Char), hasSub hay sub = true → ∀ c ∈ sub, c ∈ hay := by
  intro hay
  induction hay with
  | nil =>
    intro sub h c hc
    cases sub with
    | nil => exact absurd hc (List.not_mem_nil c)
    | cons a t => simp [hasSub, isPre] at h
  | cons b t ih =>
    intro sub h c hc
    simp only [hasSub, Bool.or_eq_true] at h
    rcases h with h | h
    · exact isPre_mem sub (b :: t) h c hc
    · exact List.mem_cons_of_mem _ (ih sub h c hc)

theorem startsWith_containsSub (s pre : String) (hne : pre.data ≠ [])
    (h : pyStartsWith s pre = true) : containsSub s pre = true := by
  unfold pyStartsWith at h
  unfold containsSub
  cases hs : s.data with
  | nil =>
    rw [hs] at h
    cases hp : pre.data with
    | nil => exact absurd hp hne
    | cons a t => rw [hp] at h; simp [isPre] at h
  | cons c t =>
    rw [hs] at h
    show hasSub (c :: t) pre.data = true
    simp [hasSub, h]

theorem strip_chars (s : String) (c : Char) (hc : c ∈ s.data) :
    c ∈ (pyStrip s).data ∨ isPySpace c = true := by
  unfold pyStrip strOf
  dsimp only
  have hsplit : ∀ l : List Char, l.takeWhile isPySpace ++ l.dropWhile isPySpace = l :=
    fun l => List.takeWhile_append_dropWhile isPySpace l
  have h1 : c ∈ trimLeft s.data ∨ isPySpace c = true := by
    unfold trimLeft
    rcases List.mem_append.mp (by rw [hsplit s.data]; exact hc) with h | h
    · exact Or.inr (List.mem_takeWhile_imp h)
    · exact Or.inl h
  rcases h1 with h1 | h1
  · unfold trimRight
    have h2 : c ∈ (trimLeft s.data).reverse := List.mem_reverse.mpr h1
    rcases List.mem_append.mp (by rw [hsplit (trimLeft s.data).reverse]; exact h2) with h3 | h3
    · exact Or.inr (List.mem_takeWhile_imp h3)
    · exact Or.inl (List.mem_reverse.mpr h3)
  · exact Or.inr h1

theorem regionEnd_not_header (l : String) (h : isRegionEnd l = true) :
    isTableHeader l = false := by
  simp only [isRegionEnd, Bool.or_eq_true] at h
  rcases h with h | h
  · have hstrip : pyStrip l = "---" := of_decide_eq_true h
    have hG : containsSub l "GPU" = false := by
      by_contra hcc
      have hT : containsSub l "GPU" = true := by
        cases hcs : containsSub l "GPU"
        · exact absurd hcs hcc
        · rfl
      have hg : 'G' ∈ l.data := hasSub_mem _ _ hT 'G' (by decide)
      rcases strip_chars l 'G' hg with h2 | h2
      · rw [hstrip] at h2
        exact absurd h2 (by decide)
      · exact absurd h2 (by decide)
    simp [isTableHeader, hG]
  · have hc : containsSub l "ts=" = true := startsWith_containsSub l "ts=" (by decide) h
    simp [isTableHeader, hc]

theorem extractTables_pre_skip : ∀ (pre X : List String),
    (∀ l ∈ pre, isTableHeader l = false) → extractTables (pre ++ X) = extractTables X := by
  intro pre
  induction pre with
  | nil => intro X _; rfl
  | cons l t ih =>
    intro X h
    rw [List.cons_append, extractTables_cons_skip l _ (h l (List.mem_cons_self _ _)),
      ih X (fun l2 hl2 => h l2 (List.mem_cons_of_mem _ hl2))]

theorem scanData_region : ∀ (mid : List String) (d : String) (post : List String),
    (∀ l ∈ mid, isRegionEnd l = false) → isRegionEnd d = true →
    scanData (mid ++ d :: post) = ((mid.filter isGpuLine).map pyRstrip, d :: post) := by
  intro mid
  induction mid with
  | nil =>
    intro d post _ hd
    simp [scanData, hd]
  | cons l t ih =>
    intro d post h hd
    have hl : isRegionEnd l = false := h l (List.mem_cons_self _ _)
    simp only [List.cons_append, scanData, hl, Bool.false_eq_true, if_false, List.append_eq]
    rw [ih d post (fun l2 hl2 => h l2 (List.mem_cons_of_mem _ hl2)) hd]
    by_cases hg : isGpuLine l = true
    · simp [hg, List.filter_cons]
    · have hg' : isGpuLine l = false := by
        cases hgl : isGpuLine l
        · rfl
        · exact absurd hgl hg
      simp [hg', List.filter_cons]

/-- Claim C10: within one region (delimited by `---` / `ts=` lines) the
first line satisfying the header heuristic becomes the header for the
whole region and at most one table is produced; scanning resumes after the
region.  Concretely, the key/value line `GPU[0]: GPU use (%): 45`
satisfies the heuristic, so when it precedes a real table header in the
same region, it (and not the real header) is used as the table's
header. -/
theorem claim10 :
    (∀ (pre : List String) (hdr : String) (mid : List String) (d : String) (post : List String),
      (∀ l ∈ pre, isTableHeader l = false) → isTableHeader hdr = true →
      (∀ l ∈ mid, isRegionEnd l = false) → isRegionEnd d = true →
      extractTables (pre ++ hdr :: (mid ++ d :: post)) =
        (if ((mid.filter isGpuLine).map pyRstrip).isEmpty then []
         else [(pySplit (pyStrip hdr), (mid.filter isGpuLine).map pyRstrip)]) ++
          extractTables post) ∧
    extractTables ["GPU[0]: GPU use (%): 45", "GPU  GPU%  VRAM%", "0 80 60"] =
      [(["GPU[0]:", "GPU", "use", "(%):", "45"], ["0 80 60"])] := by
  constructor
  · intro pre hdr mid d post hpre hh hmid hd
    rw [extractTables_pre_skip pre _ hpre, extractTables_cons_header hdr _ hh,
      scanData_region mid d post hmid hd,
      extractTables_cons_skip d post (regionEnd_not_header d hd)]
  · decide

/-- Witness for C10's universal part: one region holding one data row,
terminated by a separator. -/
theorem claim10_witness :
    extractTables ([] ++ "GPU %" :: (["0 1"] ++ "---" :: [])) =
      (if (((["0 1"].filter isGpuLine).map pyRstrip)).isEmpty then []
       else [(pySplit (pyStrip "GPU %"), (["0 1"].filter isGpuLine).map pyRstrip)]) ++
        extractTables [] :=
  claim10.1 [] "GPU %" ["0 1"] "---" [] (by intro l hl; exact absurd hl (List.not_mem_nil l))
    (by decide) (by intro l hl; rw [List.mem_singleton.mp hl]; decide) (by decide)

/-- Claim C4 (amended): a line is used as a table header exactly when it
contains `GPU`, contains `%`, and does not contain the substring `ts=`
anywhere in the line (the code tests `"ts=" not in line`, not merely that
the line does not start with a timestamp marker); header tokens are
normalized by stripping, lower-casing and deleting parentheses (`%` is
preserved). -/
theorem claim4 (line : String) (rest : List String) :
    ((containsSub line "GPU" && containsSub line "%" && !containsSub line "ts=") = false →
      extractTables (line :: rest) = extractTables rest) ∧
    ((containsSub line "GPU" && containsSub line "%" && !containsSub line "ts=") = true →
      extractTables (line :: rest) =
        (if (scanData rest).1.isEmpty then []
         else [(pySplit (pyStrip line), (scanData rest).1)]) ++
          extractTables (scanData rest).2) ∧
    ∀ t : String, (normalizeHeader t).data =
      ((pyStrip t).data.map toLowerChar).filter fun c => (c != ')') && (c != '(') := by
  refine ⟨?_, ?_, ?_⟩
  · intro h; exact extractTables_cons_skip line rest h
  · intro h; exact extractTables_cons_header line rest h
  · intro t
    unfold normalizeHeader strOf
    dsimp only
    rw [List.filter_filter]

/-- Counterexample for C4 as stated: `GPU 5% at ts=3` contains `GPU` and
`%` and does not start with a timestamp marker, yet the scanner does not
treat it as a header (no table results even though a data row follows),
because `ts=` occurs inside the line. -/
theorem claim4_counterexample :
    containsSub "GPU 5% at ts=3" "GPU" = true ∧ containsSub "GPU 5% at ts=3" "%" = true ∧
    pyStartsWith "GPU 5% at ts=3" "ts=" = false ∧
    extractTables ["GPU 5% at ts=3", "0 50"] = [] := by decide

/-- Witness for C4's amended implications. -/
theorem claim4_witness :
    extractTables ["abc", "0 1"] = extractTables ["0 1"] ∧
    extractTables ["GPU %", "0 1"] =
      (if (scanData ["0 1"]).1.isEmpty then []
       else [(pySplit (pyStrip "GPU %"), (scanData ["0 1"]).1)]) ++
        extractTables (scanData ["0 1"]).2 :=
  ⟨(claim4 "abc" ["0 1"]).1 (by decide), (claim4 "GPU %" ["0 1"]).2.1 (by decide)⟩

/-- Claim C6 (amended): a data row is skipped as a whole only when the
device-id column is unresolved or out of range of the row's tokens; any
other resolved column index beyond the row's tokens merely records no
value from that row (`grab` yields `None`), the in-range columns still
contribute, and the remaining rows of the block are processed
unchanged. -/
theorem claim6 (cols : Cols) (m : Metrics) (line : String) (rest : List String) :
    ((cols.gpu = none ∨ ∃ cg, cols.gpu = some cg ∧ (pySplit line).length ≤ cg) →
      rowStep cols m line = m ∧
      (line :: rest).foldl (rowStep cols) m = rest.foldl (rowStep cols) m) ∧
    (∀ (tokens : List String) (c : Nat), tokens.length ≤ c → grab tokens (some c) = none) ∧
    (∀ g k : String, appendOpt m g k none = m) := by
  refine ⟨?_, ?_, fun g k => rfl⟩
  · intro h
    have hrow : rowStep cols m line = m := by
      unfold rowStep
      rcases h with h | ⟨cg, hcg, hlen⟩
      · rw [h]
      · rw [hcg]
        dsimp only
        rw [if_neg (by omega)]
    exact ⟨hrow, by simp only [List.foldl_cons, hrow]⟩
  · intro tokens c hc
    simp only [grab]
    rw [if_neg (by omega)]

/-- Counterexample for C6 as stated: with header `GPU GPU% AvgPwr`, the
power column resolves to index 2 while the row `0 80` has only two
tokens, yet the row is not skipped — its in-range `GPU%` value is still
recorded. -/
theorem claim6_counterexample :
    (resolveCols (["GPU", "GPU%", "AvgPwr"].map normalizeHeader)).power = some 2 ∧
    (pySplit "0 80").length = 2 ∧
    parseSample ["GPU GPU% AvgPwr", "0 80"] = [("0", [("gpu_util_pct", [80])])] := by decide

/-- Witness for C6's amended implications: a device-id column out of
range skips the row and leaves the rest of the block unaffected. -/
theorem claim6_witness :
    rowStep ⟨some 5, none, none, none, none, none, none⟩ [] "0 80" = [] ∧
    (["0 80", "1 2"] : List String).foldl (rowStep ⟨some 5, none, none, none, none, none, none⟩) [] =
      (["1 2"] : List String).foldl (rowStep ⟨some 5, none, none, none, none, none, none⟩) [] :=
  (claim6 ⟨some 5, none, none, none, none, none, none⟩ [] "0 80" ["1 2"]).1
    (Or.inr ⟨5, rfl, by decide⟩)

theorem processFile_snd (logDir name : String) (lines : List String) :
    (processFile logDir name lines).2 = fileEmpty lines := rfl

theorem summarizeAux_warnings (logDir : String) :
    ∀ (files : List (String × List String)) (nodes : List (String × NodeStats))
      (ws : List String),
    (summarizeAux logDir files nodes ws).warnings = ws ++ warnsOf files := by
  intro files
  induction files with
  | nil => intro nodes ws; simp [summarizeAux, warnsOf]
  | cons f t ih =>
    intro nodes ws
    simp only [summarizeAux]
    by_cases hf : pyEndsWith f.1 ".log" = true
    · rw [if_pos hf, ih]
      simp only [processFile_snd]
      by_cases he : fileEmpty f.2 = true
      · rw [if_pos he]
        simp [warnsOf, List.filter_cons, hf, he]
      · rw [if_neg he]
        simp [warnsOf, List.filter_cons, hf, he]
    · rw [if_neg hf, ih]
      simp [warnsOf, List.filter_cons, hf]

theorem strAppend_right_inj (s a b : String) (h : s ++ a = s ++ b) : a = b := by
  have hd : s.data ++ a.data = s.data ++ b.data := by
    have := congrArg String.data h
    simpa [String.data_append] using this
  have hab := List.append_cancel_left hd
  cases a with
  | mk da =>
    cases b with
    | mk db =>
      simp only at hab
      rw [hab]

theorem count_warnsOf_zero (name : String) :
    ∀ files : List (String × List String), name ∉ files.map Prod.fst →
    (warnsOf files).count ("No parseable metrics in " ++ name) = 0 := by
  intro files
  induction files with
  | nil => intro _; rfl
  | cons f t ih =>
    intro h
    simp only [List.map_cons, List.mem_cons] at h
    push_neg at h
    simp only [warnsOf, List.filter_cons]
    by_cases hc : (pyEndsWith f.1 ".log" && fileEmpty f.2) = true
    · rw [if_pos hc]
      simp only [List.map_cons, List.count_cons]
      have hne : ¬ ("No parseable metrics in " ++ f.1 = "No parseable metrics in " ++ name) :=
        fun hh => h.1 ((strAppend_right_inj _ _ _ hh).symm)
      have ht := ih h.2
      simp only [warnsOf] at ht
      simp [ht, hne]
    · rw [if_neg hc]
      have ht := ih h.2
      simpa [warnsOf] using ht

theorem count_warnsOf_one :
    ∀ (files : List (String × List String)) (name : String) (lines : List String),
    (name, lines) ∈ files → pyEndsWith name ".log" = true → fileEmpty lines = true →
    (files.map Prod.fst).Nodup →
    (warnsOf files).count ("No parseable metrics in " ++ name) = 1 := by
  intro files
  induction files with
  | nil => intro name lines h _ _ _; exact absurd h (List.not_mem_nil _)
  | cons f t ih =>
    intro name lines hmem hlog hemp hnd
    simp only [List.map_cons, List.nodup_cons] at hnd
    rcases List.mem_cons.mp hmem with he | hm
    · have hf1 : f.1 = name := by rw [← he]
      have hf2 : f.2 = lines := by rw [← he]
      have hzero : name ∉ t.map Prod.fst := by rw [← hf1]; exact hnd.1
      simp only [warnsOf, List.filter_cons]
      rw [if_pos (by rw [hf1, hf2]; simp [hlog, hemp])]
      simp only [List.map_cons, List.count_cons, hf1]
      have ht := count_warnsOf_zero name t hzero
      simp only [warnsOf] at ht
      simp [ht]
    · have hne : f.1 ≠ name := by
        intro hh
        apply hnd.1
        rw [hh]
        exact List.mem_map.mpr ⟨(name, lines), hm, rfl⟩
      have hcount := ih name lines hm hlog hemp hnd.2
      simp only [warnsOf] at hcount
      simp only [warnsOf, List.filter_cons]
      by_cases hc : (pyEndsWith f.1 ".log" && fileEmpty f.2) = true
      · rw [if_pos hc]
        simp only [List.map_cons, List.count_cons]
        have hnes : ¬ ("No parseable metrics in " ++ f.1 = "No parseable metrics in " ++ name) :=
          fun hh => hne (strAppend_right_inj _ _ _ hh)
        simp [hcount, hnes]
      · rw [if_neg hc]
        exact hcount

theorem lookupNode_setNode (nodes : List (String × NodeStats)) (k : String) (v : NodeStats)
    (key : String) :
    lookupNode (setNode nodes k v) key = if k = key then some v else lookupNode nodes key := by
  induction nodes with
  | nil =>
    by_cases h : k = key
    · simp [setNode, lookupNode, h]
    · simp [setNode, lookupNode, h]
  | cons p t ih =>
    obtain ⟨k0, v0⟩ := p
    by_cases h0 : k0 = k
    · subst h0
      by_cases h : k0 = key
      · simp [setNode, lookupNode, h]
      · simp [setNode, lookupNode, h]
    · by_cases h : k0 = key
      · subst h
        have h2 : ¬ k = k0 := fun hh => h0 hh.symm
        simp [setNode, lookupNode, h0, h2]
      · simp [setNode, lookupNode, h0, h, ih]

theorem summarizeAux_nodes_skip (logDir : String) :
    ∀ (files : List (String × List String)) (nodes : List (String × NodeStats))
      (ws : List String) (key : String),
    (∀ f ∈ files, pyEndsWith f.1 ".log" = true → nodeName f.1 ≠ key) →
    lookupNode (summarizeAux logDir files nodes ws).nodes key = lookupNode nodes key := by
  intro files
  induction files with
  | nil => intro nodes ws key _; rfl
  | cons f t ih =>
    intro nodes ws key h
    simp only [summarizeAux]
    by_cases hf : pyEndsWith f.1 ".log" = true
    · rw [if_pos hf, ih _ _ _ (fun f2 hf2 => h f2 (List.mem_cons_of_mem _ hf2)),
        lookupNode_setNode, if_neg (h f (List.mem_cons_self _ _) hf)]
    · rw [if_neg hf]
      exact ih _ _ _ (fun f2 hf2 => h f2 (List.mem_cons_of_mem _ hf2))

theorem summarizeAux_nodes_find (logDir : String) :
    ∀ (files : List (String × List String)) (nodes : List (String × NodeStats))
      (ws : List String) (name : String) (lines : List String),
    (name, lines) ∈ files → pyEndsWith name ".log" = true →
    (files.map Prod.fst).Nodup →
    (∀ f ∈ files, pyEndsWith f.1 ".log" = true → f.1 ≠ name →
      nodeName f.1 ≠ nodeName name) →
    lookupNode (summarizeAux logDir files nodes ws).nodes (nodeName name) =
      some (processFile logDir name lines).1 := by
  intro files
  induction files with
  | nil => intro nodes ws name lines h _ _ _; exact absurd h (List.not_mem_nil _)
  | cons f t ih =>
    intro nodes ws name lines hmem hlog hnd hcol
    simp only [List.map_cons, List.nodup_cons] at hnd
    rcases List.mem_cons.mp hmem with he | hm
    · have hf1 : f.1 = name := by rw [← he]
      have hf2 : f.2 = lines := by rw [← he]
      simp only [summarizeAux]
      rw [if_pos (by rw [hf1]; exact hlog)]
      rw [summarizeAux_nodes_skip logDir t _ _ (nodeName name) ?_]
      · rw [lookupNode_setNode, hf1, if_pos rfl, hf2]
      · intro f2 hf2m hf2log
        have hne2 : f2.1 ≠ name := by
          intro hh
          apply hnd.1
          rw [hf1, ← hh]
          exact List.mem_map.mpr ⟨f2, hf2m, rfl⟩
        exact hcol f2 (List.mem_cons_of_mem _ hf2m) hf2log hne2
    · have hne : f.1 ≠ name := by
        intro hh
        apply hnd.1
        rw [hh]
        exact List.mem_map.mpr ⟨(name, lines), hm, rfl⟩
      simp only [summarizeAux]
      by_cases hf : pyEndsWith f.1 ".log" = true
      · rw [if_pos hf]
        exact ih _ _ name lines hm hlog hnd.2
          (fun f2 hf2 => hcol f2 (List.mem_cons_of_mem _ hf2))
      · rw [if_neg hf]
        exact ih _ _ name lines hm hlog hnd.2
          (fun f2 hf2 => hcol f2 (List.mem_cons_of_mem _ hf2))

/-- Claim C7 (amended): a `.log` file whose parsing yields zero devices
contributes exactly one warning string naming that file (file names in a
directory listing are pairwise distinct, which is the only assumption the
warning half needs); and provided no other `.log` file in the listing
maps to the same node name as this file (e.g. `".log"` and `".log.log"`
both map to node `".log"`), the file still appears in the node mapping as
an entry with an empty `gpus` mapping. -/
theorem claim7 (logDir : String) (files : List (String × List String)) (name : String)
    (lines : List String) (hmem : (name, lines) ∈ files)
    (hlog : pyEndsWith name ".log" = true) (hemp : fileEmpty lines = true)
    (hnames : (files.map Prod.fst).Nodup) :
    (summarizeLogs logDir files).warnings.count ("No parseable metrics in " ++ name) = 1 ∧
    ((∀ f ∈ files, pyEndsWith f.1 ".log" = true → f.1 ≠ name →
        nodeName f.1 ≠ nodeName name) →
      ∃ ns, lookupNode (summarizeLogs logDir files).nodes (nodeName name) = some ns ∧
        ns.gpus = [] ∧ ns.log_file = logDir ++ "/" ++ name) := by
  constructor
  · show (summarizeAux logDir files [] []).warnings.count _ = 1
    rw [summarizeAux_warnings]
    simp only [List.nil_append]
    exact count_warnsOf_one files name lines hmem hlog hemp hnames
  · intro hcol
    refine ⟨(processFile logDir name lines).1, ?_, ?_, rfl⟩
    · exact summarizeAux_nodes_find logDir files [] [] name lines hmem hlog hnames hcol
    · have hc : combineBlocks (segmentLines lines).1 = [] := by
        have := hemp
        unfold fileEmpty at this
        exact List.isEmpty_iff.mp this
      simp only [processFile]
      rw [hc]
      rfl

/-- Counterexample for C7 as stated: with directory entries `".log"` and
`".log.log"` (both empty), both map to node `".log"`; the second file's
node entry overwrites the first's, so the first file — which yielded zero
metrics — does not appear in the node mapping at all (the only entry's
`log_file` is the second file's path). -/
theorem claim7_counterexample :
    fileEmpty [] = true ∧ pyEndsWith ".log" ".log" = true ∧
    nodeName ".log" = nodeName ".log.log" ∧
    ((summarizeLogs "d" [(".log", []), (".log.log", [])]).nodes.map fun n => n.2.log_file) =
      ["d/.log.log"] := by decide

/-- Witness for C7 at a concrete one-file listing, discharging both
halves (including the node-mapping half's no-collision proviso). -/
theorem claim7_witness :
    (summarizeLogs "d" [("empty.log", [])]).warnings.count
      ("No parseable metrics in " ++ "empty.log") = 1 ∧
    ∃ ns, lookupNode (summarizeLogs "d" [("empty.log", [])]).nodes (nodeName "empty.log") =
      some ns ∧ ns.gpus = [] ∧ ns.log_file = "d" ++ "/" ++ "empty.log" :=
  ⟨(claim7 "d" [("empty.log", [])] "empty.log" [] (by decide) (by decide) (by decide)
      (by decide)).1,
   (claim7 "d" [("empty.log", [])] "empty.log" [] (by decide) (by decide) (by decide)
      (by decide)).2
     (by
       intro f hf _ hne
       rw [List.mem_singleton.mp hf] at hne
       exact absurd rfl hne)⟩
